import Mathlib

set_option maxHeartbeats 1000000

/-!
Verification development for the FSA report-automation pipeline
(`FSA_Report_Automation_using_AI.py`).  The file shallowly embeds the
period resolver, the intent-extraction post-processing, the dialogue
state machine, the batched-fetch window partition, the report
orchestrator prelude and the Excel filename collision loop, and proves
theorems settling the specification claims C1 to C10.
-/

namespace Config

/-- Trip category vocabulary, `Config.CATEGORIES` in the source. -/
def CATEGORIES : List String := ["MC", "JR", "PS", "DFW"]

/-- Default configured area vocabulary, `Config.AREAS` in the source. -/
def AREAS : List String := [
  "01-Thiruvottiyur(Area-1)", "02-Manali(Area-2)", "03-Madhavaram(Area-3)",
  "04-Tondiarpet(Area-4)", "05-Royapuram(Area-5)", "06-Thiru-Vi-Ka Nagar(Area-6)",
  "07-Ambattur(Area-7)", "08-Anna Nagar(Area-8)", "09-Teynampet(Area-9)",
  "10-Kodambakkam(Area-10)", "11-Valasaravakkam(Area-11)", "12-Alandur(Area-12)",
  "13-Adyar(Area-13)", "14-Perungudi(Area-14)", "15-Sholinganallur(Area-15)"]

end Config

/-! ## Excel filename collision loop (`save_to_excel`, C9)

Within one `(area, category, period)` family the candidate file names are
`{base}.xlsx` and `{base}-{k}.xlsx`; these renderings are pairwise distinct
strings for a fixed base, so the family is modelled by the inductive type
`XlsxName`. -/

/-- A candidate output file name of `save_to_excel` for a fixed
`{sanitized-area}_{category}_{month_year}` base: either the bare base
name or the base with numeric suffix `-{k}`. -/
inductive XlsxName
  | base
  | suffixed (k : Nat)
deriving DecidableEq

/-- Embeds the `while os.path.exists(excel_path)` loop of `save_to_excel`
(source lines 789-792): starting at `counter`, return the first suffixed
name not present in `existing`.  `fuel` bounds the loop; the source loop
terminates because the directory holds finitely many files. -/
def searchFree (existing : List XlsxName) : Nat → Nat → Option XlsxName
  | _, 0 => none
  | counter, fuel + 1 =>
    if XlsxName.suffixed counter ∈ existing then searchFree existing (counter + 1) fuel
    else some (XlsxName.suffixed counter)

/-- Path selection of `save_to_excel` (source lines 787-792): keep the base
name when it is free, otherwise scan numeric suffixes `-1`, `-2`, ...
until an unused name is found. -/
def save_to_excel_path (existing : List XlsxName) : Option XlsxName :=
  if XlsxName.base ∈ existing then searchFree existing 1 (existing.length + 1)
  else some XlsxName.base

theorem filter_length_le_of_imp {α : Type} (p q : α → Bool) (l : List α)
    (himp : ∀ x, q x = true → p x = true) :
    (l.filter q).length ≤ (l.filter p).length := by
  induction l with
  | nil => simp
  | cons x tl ih =>
    by_cases hq : q x = true
    · have hp := himp x hq
      simp only [List.filter_cons, hp, hq, if_true, List.length_cons]
      omega
    · have hq' : q x = false := eq_false_of_ne_true hq
      by_cases hp : p x = true
      · simp only [List.filter_cons, hp, hq', Bool.false_eq_true, if_true, if_false,
          List.length_cons]
        omega
      · have hp' : p x = false := eq_false_of_ne_true hp
        simp only [List.filter_cons, hp', hq', Bool.false_eq_true, if_false]
        exact ih

theorem filter_length_lt {α : Type} (p q : α → Bool) (l : List α) (a : α)
    (himp : ∀ x, q x = true → p x = true)
    (ha : a ∈ l) (hpa : p a = true) (hqa : q a = false) :
    (l.filter q).length < (l.filter p).length := by
  induction l with
  | nil => cases ha
  | cons x tl ih =>
    rcases List.mem_cons.mp ha with h | hmem
    · subst h
      have h1 := filter_length_le_of_imp p q tl himp
      simp only [List.filter_cons, hpa, hqa, Bool.false_eq_true, if_true, if_false,
        List.length_cons]
      omega
    · by_cases hq : q x = true
      · have hp := himp x hq
        have := ih hmem
        simp only [List.filter_cons, hp, hq, if_true, List.length_cons]
        omega
      · have hq' : q x = false := eq_false_of_ne_true hq
        have := ih hmem
        by_cases hp : p x = true
        · simp only [List.filter_cons, hp, hq', Bool.false_eq_true, if_true, if_false,
            List.length_cons]
          omega
        · have hp' : p x = false := eq_false_of_ne_true hp
          simp only [List.filter_cons, hp', hq', Bool.false_eq_true, if_false]
          exact this

/-- Test whether a name is a suffixed one with index at least `c`. -/
def isSufGE (c : Nat) : XlsxName → Bool
  | XlsxName.base => false
  | XlsxName.suffixed k => decide (c ≤ k)

theorem searchFree_spec (existing : List XlsxName) :
    ∀ fuel counter, (existing.filter (isSufGE counter)).length < fuel →
    ∃ k, searchFree existing counter fuel = some (XlsxName.suffixed k) ∧ counter ≤ k ∧
      XlsxName.suffixed k ∉ existing ∧
      ∀ j, counter ≤ j → j < k → XlsxName.suffixed j ∈ existing := by
  intro fuel
  induction fuel with
  | zero => intro counter h; omega
  | succ n ih =>
    intro counter h
    by_cases hmem : XlsxName.suffixed counter ∈ existing
    · have hlt : (existing.filter (isSufGE (counter + 1))).length <
          (existing.filter (isSufGE counter)).length := by
        apply filter_length_lt (isSufGE counter) (isSufGE (counter + 1)) existing
          (XlsxName.suffixed counter)
        · intro x hx
          cases x with
          | base => simp [isSufGE] at hx
          | suffixed k =>
            simp only [isSufGE, decide_eq_true_eq] at hx ⊢
            omega
        · exact hmem
        · simp [isSufGE]
        · simp [isSufGE]
      have h' : (existing.filter (isSufGE (counter + 1))).length < n := by omega
      obtain ⟨k, hk, hck, hnot, hall⟩ := ih (counter + 1) h'
      refine ⟨k, ?_, by omega, hnot, ?_⟩
      · simpa [searchFree, hmem] using hk
      · intro j hj1 hj2
        rcases Nat.eq_or_lt_of_le hj1 with h | hlt2
        · exact h ▸ hmem
        · exact hall j hlt2 hj2
    · exact ⟨counter, by simp [searchFree, hmem], Nat.le_refl _, hmem, by omega⟩

theorem save_to_excel_path_spec (existing : List XlsxName) :
    ∃ p, save_to_excel_path existing = some p ∧ p ∉ existing ∧
      (XlsxName.base ∈ existing → ∃ k, p = XlsxName.suffixed k ∧ 1 ≤ k ∧
        ∀ j, 1 ≤ j → j < k → XlsxName.suffixed j ∈ existing) := by
  by_cases hb : XlsxName.base ∈ existing
  · have h : (existing.filter (isSufGE 1)).length < existing.length + 1 :=
      Nat.lt_succ_of_le (List.length_filter_le _ _)
    obtain ⟨k, hk, h1k, hnot, hall⟩ := searchFree_spec existing (existing.length + 1) 1 h
    exact ⟨XlsxName.suffixed k, by simp [save_to_excel_path, hb, hk], hnot,
      fun _ => ⟨k, rfl, h1k, hall⟩⟩
  · exact ⟨XlsxName.base, by simp [save_to_excel_path, hb], hb, fun h => absurd h hb⟩

/-- C9: saving a report never overwrites an existing file: the chosen path is
not among the existing ones; when the base path already exists the result
carries a numeric suffix that was incremented past every taken suffix; and a
second save with the same area/category/period (so the same base, with the
first result now existing) picks a path distinct from the first and from all
pre-existing ones. -/
theorem C9_no_overwrite (existing : List XlsxName) :
    ∃ p, save_to_excel_path existing = some p ∧ p ∉ existing ∧
      (XlsxName.base ∈ existing → ∃ k, p = XlsxName.suffixed k ∧ 1 ≤ k ∧
        ∀ j, 1 ≤ j → j < k → XlsxName.suffixed j ∈ existing) ∧
      (∀ q, save_to_excel_path (p :: existing) = some q → q ≠ p ∧ q ∉ existing) := by
  obtain ⟨p, hp, hnot, hbase⟩ := save_to_excel_path_spec existing
  refine ⟨p, hp, hnot, hbase, ?_⟩
  intro q hq
  obtain ⟨q', hq', hnot', _⟩ := save_to_excel_path_spec (p :: existing)
  rw [hq] at hq'
  injection hq' with h
  subst h
  simp only [List.mem_cons, not_or] at hnot'
  exact ⟨hnot'.1, hnot'.2⟩

/-- Witness for C9 at a concrete directory: only the base path is taken. -/
theorem C9_no_overwrite_witness :
    ∃ p, save_to_excel_path [XlsxName.base] = some p ∧ p ∉ [XlsxName.base] ∧
      (XlsxName.base ∈ [XlsxName.base] → ∃ k, p = XlsxName.suffixed k ∧ 1 ≤ k ∧
        ∀ j, 1 ≤ j → j < k → XlsxName.suffixed j ∈ [XlsxName.base]) ∧
      (∀ q, save_to_excel_path (p :: [XlsxName.base]) = some q →
        q ≠ p ∧ q ∉ [XlsxName.base]) :=
  C9_no_overwrite [XlsxName.base]

/-! ## Report orchestrator prelude (`process_query_on_demand`, C10) -/

/-- Category selection of `process_query_on_demand` (source lines 839-844):
an empty list or the exact singleton `["all"]` expands to the configured
vocabulary; any other list is filtered to the recognized categories. -/
def categories_to_process (cfgCats cats : List String) : List String :=
  if cats.isEmpty || (cats.length == 1 && cats.headD "" == "all") then cfgCats
  else cats.filter (fun c => cfgCats.contains c)

/-- Area selection of `process_query_on_demand` (source lines 853-859),
symmetric to the category selection. -/
def areas_to_process (cfgAreas areas : List String) : List String :=
  if areas.isEmpty || (areas.length == 1 && areas.headD "" == "all") then cfgAreas
  else areas.filter (fun a => cfgAreas.contains a)

/-- Outcome of the orchestrator prelude: an error notification for an empty
category or area selection, or the pair of lists whose cross-product is
processed. -/
inductive OrchPlan
  | errNoCategories
  | errNoAreas
  | proceed (cats areas : List String)
deriving DecidableEq

/-- Prelude of `process_query_on_demand` (source lines 839-865): expand or
filter the requested categories and areas; stop with a single error
notification when a selection comes out empty, otherwise proceed to the full
area × category cross-product. -/
def process_query_on_demand (cfgCats cfgAreas cats areas : List String) : OrchPlan :=
  let ctp := categories_to_process cfgCats cats
  if ctp.isEmpty then OrchPlan.errNoCategories
  else
    let atp := areas_to_process cfgAreas areas
    if atp.isEmpty then OrchPlan.errNoAreas
    else OrchPlan.proceed ctp atp

/-- C10: the orchestrator treats an empty categories list — and symmetrically
an empty areas list — exactly like the sentinel `["all"]`: both expand to the
full configured vocabulary and the full cross-product is processed; the
error-notification path is reached only when a non-empty, non-sentinel list
filters down to nothing recognized. -/
theorem C10_empty_list_expands (cfgCats cfgAreas : List String) :
    categories_to_process cfgCats [] = cfgCats ∧
    categories_to_process cfgCats ["all"] = cfgCats ∧
    areas_to_process cfgAreas [] = cfgAreas ∧
    areas_to_process cfgAreas ["all"] = cfgAreas ∧
    (cfgCats ≠ [] → cfgAreas ≠ [] → ∀ cats areas,
      (cats = [] ∨ cats = ["all"]) → (areas = [] ∨ areas = ["all"]) →
      process_query_on_demand cfgCats cfgAreas cats areas =
        OrchPlan.proceed cfgCats cfgAreas) ∧
    (∀ cats areas,
      process_query_on_demand cfgCats cfgAreas cats areas = OrchPlan.errNoCategories →
      categories_to_process cfgCats cats = [] ∧
      (cfgCats ≠ [] → cats ≠ [] ∧ cats ≠ ["all"] ∧
        cats.filter (fun c => cfgCats.contains c) = [])) ∧
    (∀ cats areas,
      process_query_on_demand cfgCats cfgAreas cats areas = OrchPlan.errNoAreas →
      areas_to_process cfgAreas areas = [] ∧
      (cfgAreas ≠ [] → areas ≠ [] ∧ areas ≠ ["all"] ∧
        areas.filter (fun a => cfgAreas.contains a) = [])) := by
  refine ⟨by simp [categories_to_process], by simp [categories_to_process],
    by simp [areas_to_process], by simp [areas_to_process], ?_, ?_, ?_⟩
  · intro hc ha cats areas hcs has
    have h1 : categories_to_process cfgCats cats = cfgCats := by
      rcases hcs with h | h <;> subst h <;> simp [categories_to_process]
    have h2 : areas_to_process cfgAreas areas = cfgAreas := by
      rcases has with h | h <;> subst h <;> simp [areas_to_process]
    simp only [process_query_on_demand, h1, h2]
    rw [if_neg, if_neg]
    · simpa using ha
    · simpa using hc
  · intro cats areas h
    have hc0 : categories_to_process cfgCats cats = [] := by
      by_cases he : (categories_to_process cfgCats cats).isEmpty
      · exact List.isEmpty_iff.mp he
      · simp only [process_query_on_demand, he, if_false] at h
        by_cases ha : (areas_to_process cfgAreas areas).isEmpty <;> simp [ha] at h
    refine ⟨hc0, fun hcfg => ?_⟩
    have hne : ¬(cats.isEmpty || (cats.length == 1 && cats.headD "" == "all")) = true := by
      intro hcond
      rw [categories_to_process, if_pos hcond] at hc0
      exact hcfg hc0
    constructor
    · intro hcat; subst hcat; simp at hne
    constructor
    · intro hcat; subst hcat; simp at hne
    · rw [categories_to_process, if_neg hne] at hc0
      exact hc0
  · intro cats areas h
    have hc1 : ¬(categories_to_process cfgCats cats).isEmpty = true := by
      intro he
      simp [process_query_on_demand, he] at h
    have ha0 : areas_to_process cfgAreas areas = [] := by
      by_cases he : (areas_to_process cfgAreas areas).isEmpty
      · exact List.isEmpty_iff.mp he
      · simp [process_query_on_demand, hc1, he] at h
    refine ⟨ha0, fun hcfg => ?_⟩
    have hne : ¬(areas.isEmpty || (areas.length == 1 && areas.headD "" == "all")) = true := by
      intro hcond
      rw [areas_to_process, if_pos hcond] at ha0
      exact hcfg ha0
    constructor
    · intro har; subst har; simp at hne
    constructor
    · intro har; subst har; simp at hne
    · rw [areas_to_process, if_neg hne] at ha0
      exact ha0

/-- Witness for C10 at the configured vocabularies: an empty categories list
and an empty areas list expand to the full cross-product. -/
theorem C10_empty_list_expands_witness :
    process_query_on_demand Config.CATEGORIES Config.AREAS [] [] =
      OrchPlan.proceed Config.CATEGORIES Config.AREAS :=
  (C10_empty_list_expands Config.CATEGORIES Config.AREAS).2.2.2.2.1
    (by simp [Config.CATEGORIES]) (by simp [Config.AREAS]) [] []
    (Or.inl rfl) (Or.inl rfl)

/-! ## Batched fetch window partition (`fetch_trip_data_for_area`, C1) -/

/-- Length of `timedelta(days=1)` in microseconds, the granularity of the
`datetime` instants manipulated by the source. -/
def dayMicros : Int := 86400000000

/-- Fuelled form of the window-splitting loop of `fetch_trip_data_for_area`
(source lines 715-720): starting from `current`, emit `(current, next)`
windows with `next = min(current + timedelta(days=1), end_time)` while
`current < end_time`.  One fuel unit is spent per window; the loop advances
by at least one microsecond per iteration, so `(end - start).toNat` fuel is
always enough. -/
def date_intervals_aux (endT : Int) : Nat → Int → List (Int × Int)
  | 0, _ => []
  | fuel + 1, current =>
    if current < endT then
      (current, min (current + dayMicros) endT) ::
        date_intervals_aux endT fuel (min (current + dayMicros) endT)
    else []

/-- The `date_intervals` list built by `fetch_trip_data_for_area`. -/
def date_intervals (startT endT : Int) : List (Int × Int) :=
  date_intervals_aux endT (endT - startT).toNat startT

/-- Membership of instant `t` in the half-open interval `[p.1, p.2)` of one
window. -/
def inWindow (t : Int) (p : Int × Int) : Bool :=
  decide (p.1 ≤ t) && decide (t < p.2)

/-- Membership of instant `t` in the time filter of the per-window fact-store
query issued by `process_batch_aggregation` (source line 673):
`createdAt: {$gte: start_time, $lte: end_time}` — both bounds inclusive. -/
def inTimeFilter (t : Int) (p : Int × Int) : Bool :=
  decide (p.1 ≤ t) && decide (t ≤ p.2)

theorem date_intervals_aux_bounds (endT : Int) :
    ∀ fuel current p, p ∈ date_intervals_aux endT fuel current →
      current ≤ p.1 ∧ p.1 < p.2 ∧ p.2 ≤ endT := by
  intro fuel
  induction fuel with
  | zero => intro c p h; simp [date_intervals_aux] at h
  | succ n ih =>
    intro c p h
    by_cases hc : c < endT
    · simp only [date_intervals_aux, if_pos hc, List.mem_cons] at h
      rcases h with h | h
      · subst h
        refine ⟨le_refl _, ?_, ?_⟩ <;> simp only [dayMicros] <;> omega
      · have hb := ih _ p h
        have h2 : c < min (c + dayMicros) endT := by simp only [dayMicros]; omega
        exact ⟨le_trans (le_of_lt h2) hb.1, hb.2.1, hb.2.2⟩
    · simp [date_intervals_aux, if_neg hc] at h

theorem countP_le_of_imp {α : Type} (p q : α → Bool) (l : List α)
    (h : ∀ a ∈ l, p a = true → q a = true) : l.countP p ≤ l.countP q := by
  induction l with
  | nil => simp
  | cons x tl ih =>
    simp only [List.countP_cons]
    have hle := ih (fun a ha hp => h a (List.mem_cons_of_mem x ha) hp)
    by_cases hp : p x = true
    · rw [if_pos hp, if_pos (h x (List.mem_cons_self x tl) hp)]; omega
    · rw [if_neg hp]; split <;> omega

theorem countP_or_le {α : Type} (p q : α → Bool) (l : List α) :
    l.countP (fun a => p a || q a) ≤ l.countP p + l.countP q := by
  induction l with
  | nil => simp
  | cons x tl ih =>
    simp only [List.countP_cons]
    by_cases hp : p x = true <;> by_cases hq : q x = true <;>
      simp only [hp, hq, Bool.false_or, Bool.true_or, Bool.or_false, Bool.or_true,
        if_true, if_false, Bool.false_eq_true] <;> omega

theorem countP_congr_mem {α : Type} (p q : α → Bool) (l : List α)
    (h : ∀ a ∈ l, p a = q a) : l.countP p = l.countP q := by
  induction l with
  | nil => simp
  | cons x tl ih =>
    simp only [List.countP_cons]
    rw [h x (List.mem_cons_self x tl),
      ih (fun a ha => h a (List.mem_cons_of_mem x ha))]

theorem date_intervals_aux_countP (endT : Int) :
    ∀ fuel current t, (endT - current).toNat ≤ fuel → current ≤ t → t < endT →
      (date_intervals_aux endT fuel current).countP (inWindow t) = 1 := by
  intro fuel
  induction fuel with
  | zero => intro c t hf h1 h2; exfalso; omega
  | succ n ih =>
    intro c t hf h1 h2
    have hc : c < endT := lt_of_le_of_lt h1 h2
    simp only [date_intervals_aux, if_pos hc, List.countP_cons]
    by_cases ht : t < min (c + dayMicros) endT
    · have hz : (date_intervals_aux endT n (min (c + dayMicros) endT)).countP
          (inWindow t) = 0 := by
        rw [List.countP_eq_zero]
        intro p hp
        have hb := date_intervals_aux_bounds endT n _ p hp
        simp only [inWindow, Bool.and_eq_true, decide_eq_true_eq, not_and]
        intro hle hlt
        omega
      have hh : inWindow t (c, min (c + dayMicros) endT) = true := by
        simp only [inWindow, Bool.and_eq_true, decide_eq_true_eq]
        exact ⟨h1, ht⟩
      rw [hz, hh]
      simp
    · have hmin : min (c + dayMicros) endT ≤ t := by omega
      have hh : inWindow t (c, min (c + dayMicros) endT) = false := by
        simp only [inWindow, Bool.and_eq_false_iff, decide_eq_false_iff_not, not_lt]
        right
        exact hmin
      have hfuel : (endT - min (c + dayMicros) endT).toNat ≤ n := by
        simp only [dayMicros] at hf ⊢
        omega
      rw [hh, ih _ t hfuel hmin h2]
      simp

theorem date_intervals_aux_endCount (endT : Int) :
    ∀ fuel current t,
      (date_intervals_aux endT fuel current).countP (fun p => decide (p.2 = t)) ≤ 1 := by
  intro fuel
  induction fuel with
  | zero => intro c t; simp [date_intervals_aux]
  | succ n ih =>
    intro c t
    by_cases hc : c < endT
    · simp only [date_intervals_aux, if_pos hc, List.countP_cons]
      by_cases he : min (c + dayMicros) endT = t
      · have hz : (date_intervals_aux endT n (min (c + dayMicros) endT)).countP
            (fun p => decide (p.2 = t)) = 0 := by
          rw [List.countP_eq_zero]
          intro p hp
          have hb := date_intervals_aux_bounds endT n _ p hp
          simp only [decide_eq_true_eq]
          omega
        rw [hz]
        simp [he]
      · have hh : (decide ((c, min (c + dayMicros) endT).2 = t)) = false := by
          simp only [decide_eq_false_iff_not]
          exact he
        rw [hh]
        have := ih (min (c + dayMicros) endT) t
        simp only [if_false, Bool.false_eq_true]
        omega
    · simp [date_intervals_aux, hc]

/-- C1 counterexample: for the two-day range `[0, 2*dayMicros)` the boundary
instant `dayMicros` lies inside the requested range yet satisfies the
inclusive `$gte`/`$lte` time filter of two per-window queries, refuting the
claim that every instant is covered by the time filter of exactly one
per-window fact-store query. -/
theorem C1_boundary_double_count :
    (0 : Int) ≤ dayMicros ∧ dayMicros < 2 * dayMicros ∧
    (date_intervals 0 (2 * dayMicros)).countP (inTimeFilter dayMicros) = 2 := by
  refine ⟨by decide, by decide, ?_⟩
  decide

/-- C1 (amended): the window list partitions the half-open requested range
exactly — every instant of `[start, end)` lies in the half-open interval of
exactly one window — while the inclusive per-window query filters cover every
instant at least once and at most twice, the double coverage occurring only
at instants equal to a window's endpoint (interior day boundaries). -/
theorem C1_window_partition (startT endT t : Int)
    (h1 : startT ≤ t) (h2 : t < endT) :
    (date_intervals startT endT).countP (inWindow t) = 1 ∧
    1 ≤ (date_intervals startT endT).countP (inTimeFilter t) ∧
    (date_intervals startT endT).countP (inTimeFilter t) ≤ 2 ∧
    ((∀ p ∈ date_intervals startT endT, p.2 ≠ t) →
      (date_intervals startT endT).countP (inTimeFilter t) = 1) := by
  have hwin : (date_intervals startT endT).countP (inWindow t) = 1 :=
    date_intervals_aux_countP endT _ startT t (Nat.le_refl _) h1 h2
  have himp : ∀ p ∈ date_intervals startT endT,
      inWindow t p = true → inTimeFilter t p = true := by
    intro p _ hp
    simp only [inWindow, Bool.and_eq_true, decide_eq_true_eq] at hp
    simp only [inTimeFilter, Bool.and_eq_true, decide_eq_true_eq]
    omega
  have hlow : 1 ≤ (date_intervals startT endT).countP (inTimeFilter t) := by
    have := countP_le_of_imp (inWindow t) (inTimeFilter t) _ himp
    omega
  have hor : ∀ p ∈ date_intervals startT endT, inTimeFilter t p = true →
      (inWindow t p || decide (p.2 = t)) = true := by
    intro p _ hp
    simp only [inTimeFilter, Bool.and_eq_true, decide_eq_true_eq] at hp
    simp only [inWindow, Bool.or_eq_true, Bool.and_eq_true, decide_eq_true_eq]
    omega
  have hhigh : (date_intervals startT endT).countP (inTimeFilter t) ≤ 2 := by
    have ha := countP_le_of_imp (inTimeFilter t)
      (fun p => inWindow t p || decide (p.2 = t)) _ hor
    have hb := countP_or_le (inWindow t) (fun p => decide (p.2 = t))
      (date_intervals startT endT)
    have hcnt := date_intervals_aux_endCount endT ((endT - startT).toNat) startT t
    simp only [date_intervals] at *
    omega
  refine ⟨hwin, hlow, hhigh, ?_⟩
  intro hb
  have := countP_congr_mem (inTimeFilter t) (inWindow t) (date_intervals startT endT)
    (fun p hp => by
      have hne := hb p hp
      simp only [inTimeFilter, inWindow]
      have : (t ≤ p.2) ↔ (t < p.2) := by omega
      rw [decide_eq_decide.mpr this])
  rw [this, hwin]

/-- Witness for C1 at the two-day range and an interior instant. -/
theorem C1_window_partition_witness :
    (date_intervals 0 (2 * dayMicros)).countP (inWindow 5) = 1 ∧
    1 ≤ (date_intervals 0 (2 * dayMicros)).countP (inTimeFilter 5) ∧
    (date_intervals 0 (2 * dayMicros)).countP (inTimeFilter 5) ≤ 2 ∧
    ((∀ p ∈ date_intervals 0 (2 * dayMicros), p.2 ≠ 5) →
      (date_intervals 0 (2 * dayMicros)).countP (inTimeFilter 5) = 1) :=
  C1_window_partition 0 (2 * dayMicros) 5 (by decide) (by decide)

/-! ## Intent extraction (`parse_query_with_nlp`, C4 and C8) -/

/-- The parsed-query dictionary after the `setdefault` block of
`parse_query_with_nlp` (source lines 572-580): every key present; JSON
`null` values and absent keys are collapsed to the defaults they behave as
under Python truthiness. -/
structure IntentDict where
  categories : List String
  category : Option String
  areas : List String
  area : Option String
  period : Option String
  has_period : Bool
  has_area : Bool
  all_categories : Bool
  all_areas : Bool
deriving DecidableEq

/-- Python truthiness of an optional string: `None` and `""` are falsy. -/
def strTruthy : Option String → Bool
  | none => false
  | some s => !(s == "")

/-- Python truthiness of a list: the empty list is falsy. -/
def listTruthy (l : List String) : Bool := !l.isEmpty

/-- Condition of the backward-compatibility promotion for categories
(source line 583): `result.get("category") and not result.get("categories")`. -/
def catPromoteCond (r : IntentDict) : Bool :=
  strTruthy r.category && !listTruthy r.categories

/-- Backward-compatibility promotion (source lines 583-584): when `category`
is truthy and `categories` falsy, populate `categories` from the singleton. -/
def promoteCategory (r : IntentDict) : IntentDict :=
  if catPromoteCond r then { r with categories := [r.category.getD ""] } else r

/-- Condition of the backward-compatibility promotion for areas
(source line 587). -/
def areaPromoteCond (r : IntentDict) : Bool :=
  strTruthy r.area && !listTruthy r.areas

/-- Backward-compatibility promotion for areas (source lines 587-588). -/
def promoteArea (r : IntentDict) : IntentDict :=
  if areaPromoteCond r then { r with areas := [r.area.getD ""] } else r

/-- Condition of the collapse-to-"all" for categories (source line 591):
`result.get("all_categories") or (result.get("categories") and "all" in
result["categories"])`. -/
def allCatCond (r : IntentDict) : Bool :=
  r.all_categories || (listTruthy r.categories && r.categories.contains "all")

/-- Collapse-to-"all" for categories (source lines 591-593). -/
def collapseAllCategories (r : IntentDict) : IntentDict :=
  if allCatCond r then { r with all_categories := true, categories := ["all"] } else r

/-- Condition of the collapse-to-"all" for areas (source line 596). -/
def allAreaCond (r : IntentDict) : Bool :=
  r.all_areas || (listTruthy r.areas && r.areas.contains "all")

/-- Collapse-to-"all" for areas (source lines 596-598). -/
def collapseAllAreas (r : IntentDict) : IntentDict :=
  if allAreaCond r then { r with all_areas := true, areas := ["all"] } else r

/-- The whole post-processing block of `parse_query_with_nlp` (source lines
582-598) in source order. -/
def postProcess (r : IntentDict) : IntentDict :=
  collapseAllAreas (collapseAllCategories (promoteArea (promoteCategory r)))

/-- The empty intent dictionary returned on unrecoverable failures
(source lines 436, 604 and 609). -/
def emptyIntent : IntentDict :=
  { categories := [], category := none, areas := [], area := none, period := none,
    has_period := false, has_area := false, all_categories := false, all_areas := false }

/-- Outcome of the extraction backend call as observed by
`parse_query_with_nlp`. -/
inductive NlpOutcome
  | unreachable
  | badJSON
  | exceptionRaised
  | parsedNonDict
  | parsedDict (d : IntentDict)
deriving DecidableEq

/-- Result dictionary of `parse_query_with_nlp`: either a full intent
dictionary, or the reduced five-key dictionary `category/area/period/
has_period/has_area` returned on the parsed-but-not-an-object path
(source line 569), which lacks the `categories`, `areas`, `all_categories`
and `all_areas` keys. -/
inductive NlpResult
  | full (d : IntentDict)
  | reduced
deriving DecidableEq

/-- Shallow embedding of the result of `parse_query_with_nlp` as a function
of the backend outcome (control flow of source lines 432-609):
`unreachable` is `get_openai_client` returning `None`, `badJSON` a
`JSONDecodeError`, `exceptionRaised` any other exception, `parsedNonDict`
the shape check of line 567 failing, and `parsedDict` the well-shaped case
after the setdefault block. -/
def parse_query_with_nlp (o : NlpOutcome) : NlpResult :=
  match o with
  | NlpOutcome.unreachable => NlpResult.full emptyIntent
  | NlpOutcome.badJSON => NlpResult.full emptyIntent
  | NlpOutcome.exceptionRaised => NlpResult.full emptyIntent
  | NlpOutcome.parsedNonDict => NlpResult.reduced
  | NlpOutcome.parsedDict d => NlpResult.full (postProcess d)

/-- C4 counterexample: on the parsed-but-not-an-object failure path (a JSON
response that parses but is not an object, source lines 567-569) the function
returns the reduced five-key dictionary, not the empty `Intent` with
`categories=[]` and `areas=[]` that the claim demands for every unrecoverable
failure. -/
theorem C4_nonDict_not_empty_intent :
    parse_query_with_nlp NlpOutcome.parsedNonDict = NlpResult.reduced ∧
    NlpResult.reduced ≠ NlpResult.full emptyIntent :=
  ⟨rfl, by decide⟩

/-- C4 (amended): the Intent Extractor is total over every backend outcome —
it never raises past its boundary — and returns the empty `Intent`
(`has_period=false, has_area=false, categories=[], areas=[]`) on the
unreachable-backend, invalid-JSON and unexpected-exception paths; on the
parsed-but-not-an-object path it instead returns the reduced five-key
dictionary, which lacks the `categories`/`areas` keys (callers default them
to empty); a well-shaped object is post-processed. -/
theorem C4_failure_paths :
    parse_query_with_nlp NlpOutcome.unreachable = NlpResult.full emptyIntent ∧
    parse_query_with_nlp NlpOutcome.badJSON = NlpResult.full emptyIntent ∧
    parse_query_with_nlp NlpOutcome.exceptionRaised = NlpResult.full emptyIntent ∧
    parse_query_with_nlp NlpOutcome.parsedNonDict = NlpResult.reduced ∧
    ∀ d, parse_query_with_nlp (NlpOutcome.parsedDict d) = NlpResult.full (postProcess d) :=
  ⟨rfl, rfl, rfl, rfl, fun _ => rfl⟩

theorem promoteCategory_category (r : IntentDict) :
    (promoteCategory r).category = r.category := by
  unfold promoteCategory; split <;> rfl

theorem promoteCategory_area (r : IntentDict) : (promoteCategory r).area = r.area := by
  unfold promoteCategory; split <;> rfl

theorem promoteCategory_areas (r : IntentDict) : (promoteCategory r).areas = r.areas := by
  unfold promoteCategory; split <;> rfl

theorem promoteCategory_all_categories (r : IntentDict) :
    (promoteCategory r).all_categories = r.all_categories := by
  unfold promoteCategory; split <;> rfl

theorem promoteCategory_all_areas (r : IntentDict) :
    (promoteCategory r).all_areas = r.all_areas := by
  unfold promoteCategory; split <;> rfl

theorem promoteArea_category (r : IntentDict) : (promoteArea r).category = r.category := by
  unfold promoteArea; split <;> rfl

theorem promoteArea_categories (r : IntentDict) :
    (promoteArea r).categories = r.categories := by
  unfold promoteArea; split <;> rfl

theorem promoteArea_area (r : IntentDict) : (promoteArea r).area = r.area := by
  unfold promoteArea; split <;> rfl

theorem promoteArea_all_categories (r : IntentDict) :
    (promoteArea r).all_categories = r.all_categories := by
  unfold promoteArea; split <;> rfl

theorem promoteArea_all_areas (r : IntentDict) :
    (promoteArea r).all_areas = r.all_areas := by
  unfold promoteArea; split <;> rfl

theorem collapseAllCategories_category (r : IntentDict) :
    (collapseAllCategories r).category = r.category := by
  unfold collapseAllCategories; split <;> rfl

theorem collapseAllCategories_area (r : IntentDict) :
    (collapseAllCategories r).area = r.area := by
  unfold collapseAllCategories; split <;> rfl

theorem collapseAllCategories_areas (r : IntentDict) :
    (collapseAllCategories r).areas = r.areas := by
  unfold collapseAllCategories; split <;> rfl

theorem collapseAllCategories_all_areas (r : IntentDict) :
    (collapseAllCategories r).all_areas = r.all_areas := by
  unfold collapseAllCategories; split <;> rfl

theorem collapseAllAreas_category (r : IntentDict) :
    (collapseAllAreas r).category = r.category := by
  unfold collapseAllAreas; split <;> rfl

theorem collapseAllAreas_categories (r : IntentDict) :
    (collapseAllAreas r).categories = r.categories := by
  unfold collapseAllAreas; split <;> rfl

theorem collapseAllAreas_area (r : IntentDict) :
    (collapseAllAreas r).area = r.area := by
  unfold collapseAllAreas; split <;> rfl

theorem collapseAllAreas_all_categories (r : IntentDict) :
    (collapseAllAreas r).all_categories = r.all_categories := by
  unfold collapseAllAreas; split <;> rfl

theorem allCatCond_collapseAllAreas (r : IntentDict) :
    allCatCond (collapseAllAreas r) = allCatCond r := by
  unfold allCatCond
  rw [collapseAllAreas_categories, collapseAllAreas_all_categories]

theorem promoteCategory_of_nonempty (r : IntentDict)
    (h : listTruthy r.categories = true) : promoteCategory r = r := by
  unfold promoteCategory
  rw [if_neg]
  simp [catPromoteCond, h]

theorem promoteCategory_of_falsy (r : IntentDict)
    (h : strTruthy r.category = false) : promoteCategory r = r := by
  unfold promoteCategory
  rw [if_neg]
  simp [catPromoteCond, h]

theorem promoteCategory_truthy (r : IntentDict) (h : strTruthy r.category = true) :
    listTruthy (promoteCategory r).categories = true := by
  unfold promoteCategory
  split
  · simp [listTruthy]
  · rename_i hcond
    simp only [catPromoteCond, h, Bool.true_and, Bool.not_eq_true',
      Bool.not_eq_true] at hcond
    simpa using hcond

theorem promoteArea_of_nonempty (r : IntentDict)
    (h : listTruthy r.areas = true) : promoteArea r = r := by
  unfold promoteArea
  rw [if_neg]
  simp [areaPromoteCond, h]

theorem promoteArea_of_falsy (r : IntentDict)
    (h : strTruthy r.area = false) : promoteArea r = r := by
  unfold promoteArea
  rw [if_neg]
  simp [areaPromoteCond, h]

theorem promoteArea_truthy (r : IntentDict) (h : strTruthy r.area = true) :
    listTruthy (promoteArea r).areas = true := by
  unfold promoteArea
  split
  · simp [listTruthy]
  · rename_i hcond
    simp only [areaPromoteCond, h, Bool.true_and, Bool.not_eq_true',
      Bool.not_eq_true] at hcond
    simpa using hcond

theorem collapseAllCategories_of_pos (r : IntentDict) (h : allCatCond r = true) :
    collapseAllCategories r = { r with all_categories := true, categories := ["all"] } := by
  unfold collapseAllCategories
  rw [if_pos h]

theorem collapseAllCategories_of_neg (r : IntentDict) (h : allCatCond r = false) :
    collapseAllCategories r = r := by
  unfold collapseAllCategories
  rw [if_neg]
  simp [h]

theorem collapseAllCategories_fixed (r : IntentDict) (h1 : r.all_categories = true)
    (h2 : r.categories = ["all"]) : collapseAllCategories r = r := by
  unfold collapseAllCategories
  split
  · cases r
    simp only [IntentDict.mk.injEq] at *
    simp_all
  · rfl

theorem collapseAllCategories_keeps_nonempty (r : IntentDict)
    (h : listTruthy r.categories = true) :
    listTruthy (collapseAllCategories r).categories = true := by
  unfold collapseAllCategories
  split
  · simp [listTruthy]
  · exact h

theorem collapseAllAreas_of_pos (r : IntentDict) (h : allAreaCond r = true) :
    collapseAllAreas r = { r with all_areas := true, areas := ["all"] } := by
  unfold collapseAllAreas
  rw [if_pos h]

theorem collapseAllAreas_of_neg (r : IntentDict) (h : allAreaCond r = false) :
    collapseAllAreas r = r := by
  unfold collapseAllAreas
  rw [if_neg]
  simp [h]

theorem collapseAllAreas_fixed (r : IntentDict) (h1 : r.all_areas = true)
    (h2 : r.areas = ["all"]) : collapseAllAreas r = r := by
  unfold collapseAllAreas
  split
  · cases r
    simp only [IntentDict.mk.injEq] at *
    simp_all
  · rfl

theorem collapseAllAreas_keeps_nonempty (r : IntentDict)
    (h : listTruthy r.areas = true) :
    listTruthy (collapseAllAreas r).areas = true := by
  unfold collapseAllAreas
  split
  · simp [listTruthy]
  · exact h

theorem listTruthy_of_contains (l : List String) (a : String)
    (h : l.contains a = true) : listTruthy l = true := by
  cases l with
  | nil => simp [List.contains] at h
  | cons x xs => simp [listTruthy]

theorem postProcess_idem (r : IntentDict) : postProcess (postProcess r) = postProcess r := by
  have hcat : (postProcess r).category = r.category := by
    unfold postProcess
    rw [collapseAllAreas_category, collapseAllCategories_category, promoteArea_category,
      promoteCategory_category]
  have harea : (postProcess r).area = r.area := by
    unfold postProcess
    rw [collapseAllAreas_area, collapseAllCategories_area, promoteArea_area,
      promoteCategory_area]
  have hA : promoteCategory (postProcess r) = postProcess r := by
    by_cases hs : strTruthy r.category = true
    · apply promoteCategory_of_nonempty
      unfold postProcess
      rw [collapseAllAreas_categories]
      apply collapseAllCategories_keeps_nonempty
      rw [promoteArea_categories]
      exact promoteCategory_truthy r hs
    · apply promoteCategory_of_falsy
      rw [hcat]
      exact eq_false_of_ne_true hs
  have hB : promoteArea (postProcess r) = postProcess r := by
    by_cases hs : strTruthy r.area = true
    · apply promoteArea_of_nonempty
      unfold postProcess
      apply collapseAllAreas_keeps_nonempty
      rw [collapseAllCategories_areas]
      apply promoteArea_truthy
      rw [promoteCategory_area]
      exact hs
    · apply promoteArea_of_falsy
      rw [harea]
      exact eq_false_of_ne_true hs
  have hC : collapseAllCategories (postProcess r) = postProcess r := by
    by_cases hcc : allCatCond (promoteArea (promoteCategory r)) = true
    · apply collapseAllCategories_fixed
      · unfold postProcess
        rw [collapseAllAreas_all_categories, collapseAllCategories_of_pos _ hcc]
      · unfold postProcess
        rw [collapseAllAreas_categories, collapseAllCategories_of_pos _ hcc]
    · have hcc' := eq_false_of_ne_true hcc
      apply collapseAllCategories_of_neg
      unfold postProcess
      rw [allCatCond_collapseAllAreas, collapseAllCategories_of_neg _ hcc']
      exact hcc'
  have hD : collapseAllAreas (postProcess r) = postProcess r := by
    by_cases haa :
        allAreaCond (collapseAllCategories (promoteArea (promoteCategory r))) = true
    · apply collapseAllAreas_fixed
      · unfold postProcess
        rw [collapseAllAreas_of_pos _ haa]
      · unfold postProcess
        rw [collapseAllAreas_of_pos _ haa]
    · have haa' := eq_false_of_ne_true haa
      unfold postProcess
      rw [collapseAllAreas_of_neg _ haa']
      exact collapseAllAreas_of_neg _ haa'
  show collapseAllAreas (collapseAllCategories (promoteArea
    (promoteCategory (postProcess r)))) = postProcess r
  rw [hA, hB, hC, hD]

/-- C8: the Intent Extractor's post-processing is idempotent and
normalizing: when either list field contains the case-sensitive literal
"all" or the corresponding `all_*` flag is set, the output forces that flag
true and collapses the list to exactly `["all"]`; a legacy singleton
`category`/`area` field supplied without the corresponding list field
populates that list; and re-applying the whole post-processing to an
already-processed result is the identity. -/
theorem C8_postprocess_normalizes :
    (∀ r : IntentDict, (r.categories.contains "all" = true ∨ r.all_categories = true) →
      (postProcess r).all_categories = true ∧ (postProcess r).categories = ["all"]) ∧
    (∀ r : IntentDict, (r.areas.contains "all" = true ∨ r.all_areas = true) →
      (postProcess r).all_areas = true ∧ (postProcess r).areas = ["all"]) ∧
    (∀ (r : IntentDict) (s : String), r.category = some s → s ≠ "" →
      r.categories = [] → r.all_categories = false → s ≠ "all" →
      (postProcess r).categories = [s] ∧ (postProcess r).all_categories = false) ∧
    (∀ (r : IntentDict) (s : String), r.area = some s → s ≠ "" →
      r.areas = [] → r.all_areas = false → s ≠ "all" →
      (postProcess r).areas = [s] ∧ (postProcess r).all_areas = false) ∧
    (∀ r : IntentDict, postProcess (postProcess r) = postProcess r) := by
  refine ⟨?_, ?_, ?_, ?_, postProcess_idem⟩
  · intro r h
    have hcond : allCatCond (promoteArea (promoteCategory r)) = true := by
      rcases h with h | h
      · have hne := listTruthy_of_contains _ _ h
        have h1 : promoteCategory r = r := promoteCategory_of_nonempty r hne
        unfold allCatCond
        rw [promoteArea_categories, promoteArea_all_categories, h1]
        simp [hne]
        exact Or.inr (by simpa using h)
      · unfold allCatCond
        rw [promoteArea_all_categories, promoteCategory_all_categories, h]
        simp
    constructor
    · unfold postProcess
      rw [collapseAllAreas_all_categories, collapseAllCategories_of_pos _ hcond]
    · unfold postProcess
      rw [collapseAllAreas_categories, collapseAllCategories_of_pos _ hcond]
  · intro r h
    have hcond : allAreaCond (collapseAllCategories (promoteArea (promoteCategory r)))
        = true := by
      rcases h with h | h
      · have hne := listTruthy_of_contains _ _ h
        have h1 : (promoteCategory r).areas = r.areas := promoteCategory_areas r
        have h2 : promoteArea (promoteCategory r) = promoteCategory r :=
          promoteArea_of_nonempty _ (by rw [h1]; exact hne)
        unfold allAreaCond
        rw [collapseAllCategories_areas, collapseAllCategories_all_areas, h2, h1,
          promoteCategory_all_areas]
        simp [hne]
        exact Or.inr (by simpa using h)
      · unfold allAreaCond
        rw [collapseAllCategories_all_areas, promoteArea_all_areas,
          promoteCategory_all_areas, h]
        simp
    constructor
    · unfold postProcess
      rw [collapseAllAreas_of_pos _ hcond]
    · unfold postProcess
      rw [collapseAllAreas_of_pos _ hcond]
  · intro r s hcat hs hempty hflag hsall
    have hcond : catPromoteCond r = true := by
      unfold catPromoteCond
      rw [hcat, hempty]
      simp [strTruthy, listTruthy, hs]
    have h1 : (promoteCategory r).categories = [s] := by
      unfold promoteCategory
      rw [if_pos hcond]
      simp [hcat]
    have hcc : allCatCond (promoteArea (promoteCategory r)) = false := by
      unfold allCatCond
      rw [promoteArea_categories, promoteArea_all_categories,
        promoteCategory_all_categories, h1, hflag]
      simp [List.contains, Ne.symm hsall]
    constructor
    · unfold postProcess
      rw [collapseAllAreas_categories, collapseAllCategories_of_neg _ hcc,
        promoteArea_categories, h1]
    · unfold postProcess
      rw [collapseAllAreas_all_categories, collapseAllCategories_of_neg _ hcc,
        promoteArea_all_categories, promoteCategory_all_categories, hflag]
  · intro r s harea hs hempty hflag hsall
    have hcond : areaPromoteCond (promoteCategory r) = true := by
      unfold areaPromoteCond
      rw [promoteCategory_area, promoteCategory_areas, harea, hempty]
      simp [strTruthy, listTruthy, hs]
    have h1 : (promoteArea (promoteCategory r)).areas = [s] := by
      unfold promoteArea
      rw [if_pos hcond]
      simp [promoteCategory_area, harea]
    have hcc : allAreaCond (collapseAllCategories (promoteArea (promoteCategory r)))
        = false := by
      unfold allAreaCond
      rw [collapseAllCategories_areas, collapseAllCategories_all_areas, h1,
        promoteArea_all_areas, promoteCategory_all_areas, hflag]
      simp [List.contains, Ne.symm hsall]
    constructor
    · unfold postProcess
      rw [collapseAllAreas_of_neg _ hcc, collapseAllCategories_areas, h1]
    · unfold postProcess
      rw [collapseAllAreas_of_neg _ hcc, collapseAllCategories_all_areas,
        promoteArea_all_areas, promoteCategory_all_areas, hflag]

/-- Witness for C8: a backend result whose categories list contains "all"
collapses to the sentinel with the flag forced. -/
theorem C8_postprocess_normalizes_witness :
    (postProcess { emptyIntent with categories := ["all"] }).all_categories = true ∧
    (postProcess { emptyIntent with categories := ["all"] }).categories = ["all"] :=
  C8_postprocess_normalizes.1 { emptyIntent with categories := ["all"] }
    (Or.inl (by decide))

/-! ## Text scanning (`parse_date_from_text` patterns, C2 and C3) -/

/-- Word character of the `re` module's `\b` boundary, for the ASCII inputs
the source patterns target. -/
def isWordChar (c : Char) : Bool := c.isAlpha || c.isDigit || c == '_'

/-- Boundary test for the character preceding a match position: satisfied at
the start of the text or after a non-word character. -/
def beforeOk : Option Char → Bool
  | none => true
  | some c => !isWordChar c

/-- Case-insensitive match of a lowercase token at the head of the text. -/
def leadsWithCI : List Char → List Char → Bool
  | [], _ => true
  | _ :: _, [] => false
  | a :: as, b :: bs => (a == b.toLower) && leadsWithCI as bs

/-- Word-boundary test for the character following a match of length `n`. -/
def afterOk (n : Nat) (s : List Char) : Bool :=
  match s.drop n with
  | [] => true
  | c :: _ => !isWordChar c

/-- Scan of `re.search` for a case-insensitive occurrence of the lowercase
token `tok` with `\b` word boundaries on both sides, carrying the previous
character for the leading boundary. -/
def occursBdFrom (tok : List Char) : Option Char → List Char → Bool
  | before, [] => beforeOk before && leadsWithCI tok [] && afterOk tok.length []
  | before, c :: rest =>
    (beforeOk before && leadsWithCI tok (c :: rest) && afterOk tok.length (c :: rest)) ||
    occursBdFrom tok (some c) rest

/-- Exact match of `tok` at the head of `s`. -/
def leadsWith : List Char → List Char → Bool
  | [], _ => true
  | _ :: _, [] => false
  | a :: as, b :: bs => (a == b) && leadsWith as bs

/-- Python substring containment `tok in s`. -/
def hasSub (tok : List Char) : List Char → Bool
  | [] => leadsWith tok []
  | s@(_ :: rest) => leadsWith tok s || hasSub tok rest

/-- Lowercased text, `text.lower()`, for the ASCII inputs involved. -/
def lowerStr (s : List Char) : List Char := s.map Char.toLower

/-- The `month_names_map` dictionary of `parse_date_from_text` (source
lines 277-282) in insertion order: lowercase month name paired with its
month number. -/
def month_names_map : List (List Char × Nat) :=
  [("jan".toList, 1), ("january".toList, 1), ("feb".toList, 2), ("february".toList, 2),
   ("mar".toList, 3), ("march".toList, 3), ("apr".toList, 4), ("april".toList, 4),
   ("may".toList, 5), ("jun".toList, 6), ("june".toList, 6), ("jul".toList, 7),
   ("july".toList, 7), ("aug".toList, 8), ("august".toList, 8), ("sep".toList, 9),
   ("september".toList, 9), ("oct".toList, 10), ("october".toList, 10),
   ("nov".toList, 11), ("november".toList, 11), ("dec".toList, 12),
   ("december".toList, 12)]

/-- Lowercased alternatives of the `month_only_pattern` regex (source line
269); as a set they coincide with the dictionary keys. -/
def monthTokens : List (List Char) := month_names_map.map Prod.fst

/-- Presence of the `month_only_pattern` regex: some month name or
abbreviation occurs with `\b` boundaries, case-insensitively (line 273). -/
def hasMonthTok (s : List Char) : Bool :=
  monthTokens.any (fun tok => occursBdFrom tok none s)

/-- Match of `(?:19|20)\d{2}` followed by a `\b` boundary at the head of the
text. -/
def yearAtHead (s : List Char) : Bool :=
  match s with
  | a :: b :: c :: d :: rest =>
    ((a == '1' && b == '9') || (a == '2' && b == '0')) && c.isDigit && d.isDigit &&
    (match rest with
     | [] => true
     | e :: _ => !isWordChar e)
  | _ => false

/-- Scan of `re.search` for the `year_pattern` regex `\b(?:19|20)\d{2}\b`
(source line 270). -/
def hasYearFrom : Option Char → List Char → Bool
  | before, [] => beforeOk before && yearAtHead []
  | before, c :: rest => (beforeOk before && yearAtHead (c :: rest)) ||
      hasYearFrom (some c) rest

/-- Presence of the year pattern in the text (source line 272). -/
def hasYearTok (s : List Char) : Bool := hasYearFrom none s

/-- The substring loop of the month-only branch (source lines 284-289): the
first entry of `month_names_map`, in dictionary order, whose name occurs as a
plain substring of the lowercased text. -/
def findSubstrMonth (textLower : List Char) : Option Nat :=
  (month_names_map.find? (fun p => hasSub p.1 textLower)).map Prod.snd

/-! ## Dates, instants and the period resolver (`parse_date_from_text`) -/

/-- A calendar date as handled through `datetime.date`. -/
structure PDate where
  year : Int
  month : Nat
  day : Nat
deriving DecidableEq

/-- A timezone-localized instant: a date plus the microseconds within the
day, matching the `datetime` granularity. -/
structure PInstant where
  date : PDate
  micros : Nat
deriving DecidableEq

/-- Microseconds of `datetime.max.time()`, i.e. 23:59:59.999999. -/
def maxMicros : Nat := 86399999999

/-- Start-of-day instant `TIMEZONE.localize(datetime.combine(d,
datetime.min.time()))`. -/
def minInst (d : PDate) : PInstant := ⟨d, 0⟩

/-- End-of-day instant `TIMEZONE.localize(datetime.combine(d,
datetime.max.time()))`. -/
def maxInst (d : PDate) : PInstant := ⟨d, maxMicros⟩

/-- Strict date order used by Python when comparing `datetime.date`
values. -/
def dateLT (a b : PDate) : Prop :=
  a.year < b.year ∨ (a.year = b.year ∧
    (a.month < b.month ∨ (a.month = b.month ∧ a.day < b.day)))

instance (a b : PDate) : Decidable (dateLT a b) := by
  unfold dateLT
  infer_instance

/-- Reflexive date order. -/
def dateLE (a b : PDate) : Prop := dateLT a b ∨ a = b

instance (a b : PDate) : Decidable (dateLE a b) := by
  unfold dateLE
  infer_instance

/-- Instant order: lexicographic on the date and the microseconds. -/
def instLE (a b : PInstant) : Prop :=
  dateLT a.date b.date ∨ (a.date = b.date ∧ a.micros ≤ b.micros)

instance (a b : PInstant) : Decidable (instLE a b) := by
  unfold instLE
  infer_instance

/-- Gregorian leap-year rule of `calendar.monthrange`. -/
def isLeap (y : Int) : Bool := (y % 4 == 0 && y % 100 != 0) || y % 400 == 0

/-- Days in a month, `calendar.monthrange(y, m)[1]`. -/
def daysInMonth (y : Int) (m : Nat) : Nat :=
  if m == 2 then (if isLeap y then 29 else 28)
  else if m == 4 || m == 6 || m == 9 || m == 11 then 30
  else 31

/-- The month-only branch of `parse_date_from_text` (source lines 268-313):
when the month pattern is present and the year pattern absent, the first
dictionary entry found as a substring of the lowercased text is resolved to
its most recent past-or-current occurrence relative to the current month and
year, producing the first and last instants of that month; in every other
case the branch falls through to the extraction backend. -/
def monthOnlyBranch (text : List Char) (curY : Int) (curM : Nat) :
    Option (PInstant × PInstant) :=
  if hasMonthTok text && !hasYearTok text then
    match findSubstrMonth (lowerStr text) with
    | some m =>
      let targetYear : Int :=
        if curM < m then curY - 1
        else if curM == m then curY
        else curY
      some (minInst ⟨targetYear, m, 1⟩,
        maxInst ⟨targetYear, m, daysInMonth targetYear m⟩)
    | none => none
  else none

/-- Value of one date field of the extractor's JSON reply after the
truthiness check and `strptime` of source lines 391-394: `absent` covers a
missing key, JSON `null` and the empty string; `invalid` a present string
`strptime` rejects; `date` a well-formed `YYYY-MM-DD` value. -/
inductive FieldVal
  | absent
  | invalid
  | date (d : PDate)
deriving DecidableEq

/-- Outcome of the backend call inside `parse_date_from_text`. -/
inductive ExtractOutcome
  | unreachable
  | badJSON
  | parsed (sv ev : FieldVal)
deriving DecidableEq

/-- The general (extraction-backed) branch of `parse_date_from_text`
(source lines 388-412): require both dates present and well formed, reject
`start_date > end_date`, and localize the dates to start-of-day and
end-of-day instants. -/
def generalBranch (sv ev : FieldVal) : Option (PInstant × PInstant) :=
  match sv, ev with
  | FieldVal.date ds, FieldVal.date de =>
    if dateLT de ds then none
    else some (minInst ds, maxInst de)
  | _, _ => none

/-- Shallow embedding of `parse_date_from_text` (source lines 248-421):
`clientOk` models `get_openai_client` succeeding (checked before anything
else, line 260-262); then the month-only branch; then the extraction
backend, whose failures (`unreachable` call errors, `badJSON` responses)
are caught and mapped to `None`. -/
def parse_date_from_text (clientOk : Bool) (text : List Char) (curY : Int)
    (curM : Nat) (out : ExtractOutcome) : Option (PInstant × PInstant) :=
  if !clientOk then none
  else
    match monthOnlyBranch text curY curM with
    | some r => some r
    | none =>
      match out with
      | ExtractOutcome.unreachable => none
      | ExtractOutcome.badJSON => none
      | ExtractOutcome.parsed sv ev => generalBranch sv ev

theorem leadsWithCI_eq_leadsWith_lower (tok : List Char) :
    ∀ s, leadsWithCI tok s = leadsWith tok (lowerStr s) := by
  induction tok with
  | nil => intro s; cases s <;> rfl
  | cons a as ih =>
    intro s
    cases s with
    | nil => rfl
    | cons b bs =>
      show ((a == b.toLower) && leadsWithCI as bs)
        = ((a == b.toLower) && leadsWith as (lowerStr bs))
      rw [ih]

theorem hasSub_of_occursBd (tok : List Char) :
    ∀ s before, occursBdFrom tok before s = true → hasSub tok (lowerStr s) = true := by
  intro s
  induction s with
  | nil =>
    intro before h
    simp only [occursBdFrom, Bool.and_eq_true] at h
    have h2 := h.1.2
    rw [leadsWithCI_eq_leadsWith_lower] at h2
    simpa [hasSub, lowerStr] using h2
  | cons c rest ih =>
    intro before h
    simp only [occursBdFrom, Bool.or_eq_true, Bool.and_eq_true] at h
    rcases h with ⟨⟨_, hlead⟩, _⟩ | h
    · rw [leadsWithCI_eq_leadsWith_lower] at hlead
      simp only [lowerStr, List.map_cons] at hlead ⊢
      simp [hasSub, hlead]
    · have h2 := ih (some c) h
      simp only [lowerStr, List.map_cons] at h2 ⊢
      simp [hasSub, h2]

theorem findSubstrMonth_isSome (text : List Char) (hm : hasMonthTok text = true) :
    ∃ m, findSubstrMonth (lowerStr text) = some m := by
  simp only [hasMonthTok, List.any_eq_true] at hm
  obtain ⟨tok, htok, hocc⟩ := hm
  simp only [monthTokens, List.mem_map] at htok
  obtain ⟨p, hp, rfl⟩ := htok
  have hsub := hasSub_of_occursBd p.1 text none hocc
  have hfind : (month_names_map.find? (fun q => hasSub q.1 (lowerStr text))).isSome := by
    rw [List.find?_isSome]
    exact ⟨p, hp, hsub⟩
  obtain ⟨q, hq⟩ := Option.isSome_iff_exists.mp hfind
  exact ⟨q.2, by simp [findSubstrMonth, hq]⟩

/-- Month tokens (lowercase) naming month `m`. -/
def monthToksFor (m : Nat) : List (List Char) :=
  (month_names_map.filter (fun p => p.2 == m)).map Prod.fst

/-- Months named in the text by the boundary-respecting detection regex. -/
def namedMonths (s : List Char) : List Nat :=
  ((List.range 12).map (fun i => i + 1)).filter
    (fun m => (monthToksFor m).any (fun tok => occursBdFrom tok none s))

/-- C2 counterexample: in `"summary of June"` the only month named with
proper word boundaries is June (month 6) and no year is present, yet the
month-only branch resolves to March: the substring loop hits `"mar"` inside
the word `"summary"` before ever considering `"june"`, so relative to
October 2026 the resolver returns March 2026 instead of June 2026. -/
theorem C2_substring_month_mismatch :
    hasMonthTok "summary of June".toList = true ∧
    hasYearTok "summary of June".toList = false ∧
    namedMonths "summary of June".toList = [6] ∧
    monthOnlyBranch "summary of June".toList 2026 10 =
      some (minInst ⟨2026, 3, 1⟩, maxInst ⟨2026, 3, 31⟩) :=
  ⟨by decide, by decide, by decide, by decide⟩

/-- C2 (amended): whenever the month pattern is present and the year pattern
absent, the resolver returns the month picked by the substring loop — the
first `month_names_map` entry occurring as a plain case-insensitive substring
of the text, which need not be the month matched with word boundaries — at
its most recent past-or-current occurrence: the previous year when the
current month is earlier than the picked month, the current year otherwise,
spanning the first instant of day 1 through the last instant of the month's
last day in the configured timezone. -/
theorem C2_month_only_resolution (text : List Char) (curY : Int) (curM : Nat)
    (hm : hasMonthTok text = true) (hy : hasYearTok text = false) :
    ∃ m, findSubstrMonth (lowerStr text) = some m ∧
      monthOnlyBranch text curY curM =
        some (minInst ⟨(if curM < m then curY - 1 else curY), m, 1⟩,
          maxInst ⟨(if curM < m then curY - 1 else curY), m,
            daysInMonth (if curM < m then curY - 1 else curY) m⟩) := by
  obtain ⟨m, hfind⟩ := findSubstrMonth_isSome text hm
  refine ⟨m, hfind, ?_⟩
  unfold monthOnlyBranch
  rw [hm, hy, hfind]
  simp only [Bool.not_false, Bool.and_self, if_true]
  by_cases h1 : curM < m
  · simp [h1]
  · have h2 : (if curM == m then curY else curY) = curY := by split <;> rfl
    simp [h1, h2]

/-- Witness for the amended C2 at the concrete text `"August trips"`. -/
theorem C2_month_only_resolution_witness :
    ∃ m, findSubstrMonth (lowerStr "August trips".toList) = some m ∧
      monthOnlyBranch "August trips".toList 2025 10 =
        some (minInst ⟨(if 10 < m then 2025 - 1 else 2025), m, 1⟩,
          maxInst ⟨(if 10 < m then 2025 - 1 else 2025), m,
            daysInMonth (if 10 < m then 2025 - 1 else 2025) m⟩) :=
  C2_month_only_resolution "August trips".toList 2025 10 (by decide) (by decide)

theorem dateLE_of_not_lt (a b : PDate) (h : ¬ dateLT b a) : dateLE a b := by
  cases a with
  | mk ay am ad =>
    cases b with
    | mk b1 bm bd =>
      simp only [dateLT, dateLE, PDate.mk.injEq] at *
      omega

theorem daysInMonth_pos (y : Int) (m : Nat) : 1 ≤ daysInMonth y m := by
  unfold daysInMonth
  split
  · split <;> omega
  · split <;> omega

theorem instLE_min_max (d1 d2 : PDate) (h : dateLE d1 d2) :
    instLE (minInst d1) (maxInst d2) := by
  rcases h with h | h
  · exact Or.inl h
  · exact Or.inr ⟨h, Nat.zero_le _⟩

theorem monthOnlyBranch_shape (text : List Char) (curY : Int) (curM : Nat)
    (r : PInstant × PInstant) (h : monthOnlyBranch text curY curM = some r) :
    ∃ ty m, r = (minInst ⟨ty, m, 1⟩, maxInst ⟨ty, m, daysInMonth ty m⟩) := by
  unfold monthOnlyBranch at h
  by_cases hc : (hasMonthTok text && !hasYearTok text) = true
  · rw [if_pos hc] at h
    cases hfind : findSubstrMonth (lowerStr text) with
    | none => rw [hfind] at h; cases h
    | some m =>
      rw [hfind] at h
      simp only [Option.some.injEq] at h
      exact ⟨_, m, h.symm⟩
  · rw [if_neg hc] at h
    cases h

/-- C3: whenever the period resolver returns a period, the result is
`start ≤ end` with the start at the minimum-of-day instant of a start date
and the end at the maximum-of-day instant of an end date with
`start_date ≤ end_date`; and it returns failure when the extractor client is
unavailable, when the backend call fails or its output is not parseable
JSON, when either extracted date is absent or malformed, and when the
extracted `start_date > end_date`. -/
theorem C3_resolver_contract :
    (∀ text curY curM out, parse_date_from_text false text curY curM out = none) ∧
    (∀ clientOk text curY curM out s e,
      parse_date_from_text clientOk text curY curM out = some (s, e) →
      instLE s e ∧ ∃ ds de, dateLE ds de ∧ s = minInst ds ∧ e = maxInst de) ∧
    (∀ text curY curM, monthOnlyBranch text curY curM = none →
      parse_date_from_text true text curY curM ExtractOutcome.unreachable = none ∧
      parse_date_from_text true text curY curM ExtractOutcome.badJSON = none) ∧
    (∀ text curY curM sv ev, monthOnlyBranch text curY curM = none →
      (sv = FieldVal.absent ∨ sv = FieldVal.invalid ∨ ev = FieldVal.absent ∨
        ev = FieldVal.invalid) →
      parse_date_from_text true text curY curM (ExtractOutcome.parsed sv ev) = none) ∧
    (∀ text curY curM ds de, monthOnlyBranch text curY curM = none → dateLT de ds →
      parse_date_from_text true text curY curM
        (ExtractOutcome.parsed (FieldVal.date ds) (FieldVal.date de)) = none) := by
  refine ⟨?_, ?_, ?_, ?_, ?_⟩
  · intro text curY curM out
    simp [parse_date_from_text]
  · intro clientOk text curY curM out s e h
    cases clientOk with
    | false => simp [parse_date_from_text] at h
    | true =>
      simp only [parse_date_from_text, Bool.not_true, Bool.false_eq_true,
        if_false] at h
      cases hmb : monthOnlyBranch text curY curM with
      | some r =>
        rw [hmb] at h
        simp only [Option.some.injEq] at h
        obtain ⟨ty, m, hr⟩ := monthOnlyBranch_shape text curY curM r hmb
        subst hr
        have hpair : s = minInst ⟨ty, m, 1⟩ ∧ e = maxInst ⟨ty, m, daysInMonth ty m⟩ := by
          have h1 := congrArg Prod.fst h
          have h2 := congrArg Prod.snd h
          exact ⟨h1.symm, h2.symm⟩
        obtain ⟨hs, he⟩ := hpair
        subst hs; subst he
        have hle : dateLE ⟨ty, m, 1⟩ ⟨ty, m, daysInMonth ty m⟩ := by
          have := daysInMonth_pos ty m
          rcases Nat.eq_or_lt_of_le this with h1 | h1
          · exact Or.inr (by simp [← h1])
          · exact Or.inl (Or.inr ⟨rfl, Or.inr ⟨rfl, h1⟩⟩)
        exact ⟨instLE_min_max _ _ hle, _, _, hle, rfl, rfl⟩
      | none =>
        rw [hmb] at h
        cases out with
        | unreachable => cases h
        | badJSON => cases h
        | parsed sv ev =>
          cases sv with
          | date ds =>
            cases ev with
            | date de =>
              simp only [generalBranch] at h
              by_cases hlt : dateLT de ds
              · rw [if_pos hlt] at h; cases h
              · rw [if_neg hlt] at h
                simp only [Option.some.injEq] at h
                have hle := dateLE_of_not_lt ds de hlt
                have h1 := congrArg Prod.fst h
                have h2 := congrArg Prod.snd h
                simp only at h1 h2
                subst h1; subst h2
                exact ⟨instLE_min_max _ _ hle, ds, de, hle, rfl, rfl⟩
            | absent => simp [generalBranch] at h
            | invalid => simp [generalBranch] at h
          | absent => simp [generalBranch] at h
          | invalid => simp [generalBranch] at h
  · intro text curY curM hmb
    constructor <;> simp [parse_date_from_text, hmb]
  · intro text curY curM sv ev hmb hbad
    simp only [parse_date_from_text, Bool.not_true, Bool.false_eq_true, if_false]
    rw [hmb]
    have hg : generalBranch sv ev = none := by
      cases sv with
      | date ds =>
        cases ev with
        | date de =>
          exfalso
          rcases hbad with h | h | h | h <;> exact FieldVal.noConfusion h
        | absent => rfl
        | invalid => rfl
      | absent => cases ev <;> rfl
      | invalid => cases ev <;> rfl
    simpa using hg
  · intro text curY curM ds de hmb hlt
    simp only [parse_date_from_text, Bool.not_true, Bool.false_eq_true, if_false]
    rw [hmb]
    simp [generalBranch, hlt]

/-- Witness for C3: with an unavailable extractor client the resolver fails
on a concrete query. -/
theorem C3_resolver_contract_witness :
    parse_date_from_text false "Jun 2024".toList 2025 10 ExtractOutcome.badJSON = none :=
  C3_resolver_contract.1 "Jun 2024".toList 2025 10 ExtractOutcome.badJSON

/-! ## Area reply resolution (`handle_area_response`, C6) -/

/-- Python `\s` whitespace for the ASCII inputs involved. -/
def isSpace (c : Char) : Bool :=
  c == ' ' || c == '\t' || c == '\n' || c == '\r' || c == '\x0b' || c == '\x0c'

/-- Match of `areas?\b` (case-insensitive) at the head of the text. -/
def areasWordAt (s : List Char) : Bool :=
  leadsWithCI "area".toList s &&
  (match s.drop 4 with
   | c :: tl =>
     if c.toLower == 's' then
       match tl with
       | [] => true
       | d :: _ => !isWordChar d
     else !isWordChar c
   | [] => true)

/-- Match of `all\s+areas?\b` at the head of the text. -/
def allAreasAt (s : List Char) : Bool :=
  leadsWithCI "all".toList s &&
  (let rest := s.drop 3
   !(rest.takeWhile isSpace).isEmpty && areasWordAt (rest.dropWhile isSpace))

/-- Match of `all\b` at the head of the text. -/
def bareAllAt (s : List Char) : Bool :=
  leadsWithCI "all".toList s && afterOk 3 s

/-- Scan for `\ball\s+areas?\b|\ball\b` as `re.search` does. -/
def allAreasScan : Option Char → List Char → Bool
  | before, [] => beforeOk before && (allAreasAt [] || bareAllAt [])
  | before, c :: rest =>
    (beforeOk before && (allAreasAt (c :: rest) || bareAllAt (c :: rest))) ||
    allAreasScan (some c) rest

/-- The all-areas special-case regex of `handle_area_response` (source line
1195): `re.search(r'\ball\s+areas?\b|\ball\b', area_input, IGNORECASE)`. -/
def allAreasRegex (s : List Char) : Bool := allAreasScan none s

/-- Numeric value of a digit run, as `int` parses it. -/
def digitsVal (l : List Char) : Nat :=
  l.foldl (fun a c => a * 10 + (c.toNat - 48)) 0

/-- Match of `Area[- ]?(\d+)` at the head of the text (optional single
separator, then a maximal nonempty digit run); returns the captured number
and the remainder after the whole match. -/
def matchAreaNum (s : List Char) : Option (Nat × List Char) :=
  if leadsWithCI "area".toList s then
    let rest := s.drop 4
    let afterSep : Option (Nat × List Char) :=
      match rest with
      | c :: tl =>
        if c == '-' || c == ' ' then
          let ds := tl.takeWhile Char.isDigit
          if ds.isEmpty then none else some (digitsVal ds, tl.dropWhile Char.isDigit)
        else none
      | [] => none
    match afterSep with
    | some r => some r
    | none =>
      let ds := rest.takeWhile Char.isDigit
      if ds.isEmpty then none else some (digitsVal ds, rest.dropWhile Char.isDigit)
  else none

/-- `re.findall(r'Area[- ]?(\d+)', area_input, IGNORECASE)` (source line
1216): left-to-right scan resuming after each non-overlapping match; the
fuel exceeds the text length, which each step strictly consumes. -/
def findAreaNums : Nat → List Char → List Nat
  | 0, _ => []
  | _, [] => []
  | fuel + 1, s@(_ :: rest) =>
    match matchAreaNum s with
    | some (n, r) => n :: findAreaNums fuel r
    | none => findAreaNums fuel rest

/-- Map matched area numbers as 1-based indices into the configured area
list, skipping out-of-range numbers and duplicates (source lines
1218-1223). -/
def mapAreaNums (cfgAreas : List String) (nums : List Nat) : List String :=
  nums.foldl (fun acc n =>
    if 1 ≤ n ∧ n ≤ cfgAreas.length then
      match cfgAreas.get? (n - 1) with
      | some a => if a ∈ acc then acc else acc ++ [a]
      | none => acc
    else acc) []

/-- Match of the split separator `\s+and\s+` (case-insensitive) at the head
of the text, returning the remainder. -/
def matchAndSep (s : List Char) : Option (List Char) :=
  if (s.takeWhile isSpace).isEmpty then none
  else
    match s.dropWhile isSpace with
    | a :: n :: d :: rest =>
      if a.toLower == 'a' && n.toLower == 'n' && d.toLower == 'd' then
        if (rest.takeWhile isSpace).isEmpty then none
        else some (rest.dropWhile isSpace)
      else none
    | _ => none

/-- `re.split(r'\s+and\s+', area_input, flags=IGNORECASE)` (source line
1227); the fuel exceeds the text length, which each step strictly
consumes. -/
def splitAndAux : Nat → List Char → List Char → List (List Char)
  | 0, acc, _ => [acc.reverse]
  | fuel + 1, acc, s =>
    match matchAndSep s with
    | some rest => acc.reverse :: splitAndAux fuel [] rest
    | none =>
      match s with
      | [] => [acc.reverse]
      | c :: rest => splitAndAux fuel (c :: acc) rest

/-- Split the text at every " and "-style separator. -/
def splitAnd (s : List Char) : List (List Char) := splitAndAux (s.length + 1) [] s

/-- `re.search(r'Area[- ]?(\d+)', part, IGNORECASE)` (source line 1229):
the first match within one part. -/
def firstAreaNum : Nat → List Char → Option Nat
  | 0, _ => none
  | _, [] => none
  | fuel + 1, s@(_ :: rest) =>
    match matchAreaNum s with
    | some (n, _) => some n
    | none => firstAreaNum fuel rest

/-- The `" and "`-joined branch (source lines 1226-1235): add the first area
number of each split part, with the same bounds check and dedup. -/
def addAndMatches (cfgAreas : List String) (input : List Char)
    (acc0 : List String) : List String :=
  (splitAnd input).foldl (fun acc part =>
    match firstAreaNum (part.length + 1) part with
    | some n =>
      if 1 ≤ n ∧ n ≤ cfgAreas.length then
        match cfgAreas.get? (n - 1) with
        | some a => if a ∈ acc then acc else acc ++ [a]
        | none => acc
      else acc
    | none => acc) acc0

/-- The guard `" and " in area_input.lower()` (source line 1226). -/
def hasAndSep (input : List Char) : Bool :=
  hasSub " and ".toList (lowerStr input)

/-- Manual fallback area matching of `handle_area_response` (source lines
1212-1242): collect every `Area<sep><number>` token, add the " and "-joined
matches, and when still empty fall back to the first case-insensitive
two-way substring match against the configured area list. -/
def manualAreaMatch (cfgAreas : List String) (input : List Char) : List String :=
  let m1 := mapAreaNums cfgAreas (findAreaNums (input.length + 1) input)
  let m2 := if hasAndSep input then addAndMatches cfgAreas input m1 else m1
  if m2.isEmpty then
    match cfgAreas.find? (fun a =>
      hasSub (lowerStr input) (lowerStr a.toList) ||
      hasSub (lowerStr a.toList) (lowerStr input)) with
    | some a => [a]
    | none => []
  else m2

/-- `parsed.get("areas", [])` on an extractor result dictionary. -/
def nlpGetAreas : NlpResult → List String
  | NlpResult.full d => d.areas
  | NlpResult.reduced => []

/-- `parsed.get("all_areas", False)` on an extractor result dictionary. -/
def nlpGetAllAreas : NlpResult → Bool
  | NlpResult.full d => d.all_areas
  | NlpResult.reduced => false

/-- Slot outcome of `handle_area_response` for an authorized message
(source lines 1192-1257): `some (areas, all_flag)` when the area slot is
filled, `none` when every fallback failed and the handler re-prompts. -/
def handle_area_core (cfgAreas : List String) (input : List Char)
    (nlp : NlpResult) : Option (List String × Bool) :=
  if allAreasRegex input then some (["all"], true)
  else
    let areas_found := nlpGetAreas nlp
    let all_flag := nlpGetAllAreas nlp
    if all_flag || (listTruthy areas_found && areas_found.contains "all") then
      some (["all"], true)
    else if listTruthy areas_found then some (areas_found, false)
    else
      let m := manualAreaMatch cfgAreas input
      if m.isEmpty then none else some (m, false)

/-! ## Dialogue state machine (`handle_query` and friends, C5 and C7) -/

/-- Conversation position of the Telegram `ConversationHandler`. -/
inductive ConvPos
  | idle
  | waitingPeriod
  | waitingArea
deriving DecidableEq

/-- Per-chat `context.user_data` slots touched by the handlers. -/
structure UserData where
  categories : List String
  category : Option String
  all_categories : Bool
  areas : List String
  area : Option String
  all_areas : Bool
  period_text : Option String
  has_period : Bool
  has_area : Bool
  waiting_for : Option String
deriving DecidableEq

/-- Cleared `context.user_data`. -/
def emptyUD : UserData :=
  { categories := [], category := none, all_categories := false, areas := [],
    area := none, all_areas := false, period_text := none, has_period := false,
    has_area := false, waiting_for := none }

/-- Outbound messages the handlers can send (the full report run of
`process_query_on_demand` collapsed into one `reportRun` event). -/
inductive Send
  | guidanceNoCategories
  | askPeriod
  | askArea
  | processing
  | periodParseError
  | areaRetry
  | cancelAck
  | startHelp
  | reportRun
deriving DecidableEq

/-- Store the parsed intent into `context.user_data` (source lines
992-1001). -/
def storeParsed (parsed : IntentDict) (ud : UserData) : UserData :=
  { ud with
    categories := parsed.categories
    category := parsed.category
    all_categories := parsed.all_categories
    areas := parsed.areas
    area := parsed.area
    all_areas := parsed.all_areas
    period_text := parsed.period
    has_period := parsed.has_period
    has_area := parsed.has_area }

/-- `handle_query` (source lines 953-1096) on a text event carrying the
intent extracted from it; `periodOk` models whether `parse_date_from_text`
succeeds on the stored period text. -/
def handle_query (auth : Bool) (parsed : IntentDict) (periodOk : Bool)
    (ud : UserData) : List Send × (ConvPos × UserData) :=
  if !auth then ([], (ConvPos.idle, ud))
  else
    let ud1 := storeParsed parsed ud
    if !listTruthy parsed.categories && !parsed.all_categories then
      ([Send.guidanceNoCategories], (ConvPos.idle, ud1))
    else if !parsed.has_period then
      ([Send.askPeriod],
        (ConvPos.waitingPeriod, { ud1 with waiting_for := some "period" }))
    else if !parsed.has_area then
      ([Send.askArea],
        (ConvPos.waitingArea, { ud1 with waiting_for := some "area" }))
    else if periodOk then
      ([Send.processing, Send.reportRun], (ConvPos.idle, ud1))
    else
      ([Send.processing, Send.periodParseError], (ConvPos.idle, ud1))

/-- `handle_period_response` (source lines 1099-1179): the raw text is
stored as the period unconditionally; the area is requested when still
missing, otherwise the run is executed. -/
def handle_period_response (auth : Bool) (txt : String) (periodOk : Bool)
    (ud : UserData) : List Send × (ConvPos × UserData) :=
  if !auth then ([], (ConvPos.idle, ud))
  else
    let ud1 := { ud with period_text := some txt, has_period := true }
    if !ud1.has_area || (!listTruthy ud1.areas && !ud1.all_areas) then
      ([Send.askArea],
        (ConvPos.waitingArea, { ud1 with waiting_for := some "area" }))
    else if periodOk then
      ([Send.processing, Send.reportRun], (ConvPos.idle, ud1))
    else
      ([Send.processing, Send.periodParseError], (ConvPos.idle, ud1))

/-- `handle_area_response` (source lines 1182-1304). -/
def handle_area_response (auth : Bool) (cfgAreas : List String)
    (input : List Char) (nlp : NlpResult) (periodOk : Bool) (ud : UserData) :
    List Send × (ConvPos × UserData) :=
  if !auth then ([], (ConvPos.idle, ud))
  else
    match handle_area_core cfgAreas input nlp with
    | none => ([Send.areaRetry], (ConvPos.waitingArea, ud))
    | some (as, allFlag) =>
      let ud1 := { ud with areas := as, all_areas := allFlag, has_area := true }
      if periodOk then ([Send.processing, Send.reportRun], (ConvPos.idle, ud1))
      else ([Send.processing, Send.periodParseError], (ConvPos.idle, ud1))

/-- `cancel` (source lines 1307-1319). -/
def cancel (auth : Bool) (ud : UserData) : List Send × (ConvPos × UserData) :=
  if !auth then ([], (ConvPos.idle, ud))
  else ([Send.cancelAck], (ConvPos.idle, emptyUD))

/-- `start` (source lines 1322-1351): sends the help text and leaves the
conversation state untouched. -/
def start (auth : Bool) (pos : ConvPos) (ud : UserData) :
    List Send × (ConvPos × UserData) :=
  if !auth then ([], (pos, ud))
  else ([Send.startHelp], (pos, ud))

/-- An inbound chat event: a text message (carrying the environment's
extraction results for whichever handler consumes it), `/cancel`, or
`/start`. -/
inductive Event
  | msg (parsed : IntentDict) (raw : String) (nlp : NlpResult) (periodOk : Bool)
  | cancelCmd
  | startCmd

/-- Routing of one inbound event by conversation position (the
`ConversationHandler` wiring of source lines 1419-1444: text events go to
the handler of the current state, `/cancel` only acts inside a
conversation, `/start` is a plain command handler). -/
def bot_step (auth : Bool) (cfgAreas : List String) (st : ConvPos × UserData)
    (e : Event) : List Send × (ConvPos × UserData) :=
  match e with
  | Event.startCmd => start auth st.1 st.2
  | Event.cancelCmd =>
    match st.1 with
    | ConvPos.idle => ([], st)
    | _ => cancel auth st.2
  | Event.msg parsed raw nlp periodOk =>
    match st.1 with
    | ConvPos.idle => handle_query auth parsed periodOk st.2
    | ConvPos.waitingPeriod => handle_period_response auth raw periodOk st.2
    | ConvPos.waitingArea =>
      handle_area_response auth cfgAreas raw.toList nlp periodOk st.2

/-- Run a list of inbound events against the machine, collecting every
outbound message. -/
def runTrace (auth : Bool) (cfgAreas : List String) :
    ConvPos × UserData → List Event → List Send × (ConvPos × UserData)
  | st, [] => ([], st)
  | st, e :: es =>
    let r1 := bot_step auth cfgAreas st e
    let r2 := runTrace auth cfgAreas r1.2 es
    (r1.1 ++ r2.1, r2.2)

/-- C7: every inbound event whose chat identity is outside the configured
allow-list is dropped silently: over any event sequence an unauthorized
chat, which starts idle, produces no outbound message and no state change;
and each individual handler sends nothing and leaves `user_data` untouched
for an unauthorized sender. -/
theorem C7_unauthorized_silent :
    (∀ cfgAreas ud es, runTrace false cfgAreas (ConvPos.idle, ud) es
      = ([], (ConvPos.idle, ud))) ∧
    (∀ parsed periodOk ud, handle_query false parsed periodOk ud
      = ([], (ConvPos.idle, ud))) ∧
    (∀ txt periodOk ud, handle_period_response false txt periodOk ud
      = ([], (ConvPos.idle, ud))) ∧
    (∀ cfgAreas input nlp periodOk ud,
      handle_area_response false cfgAreas input nlp periodOk ud
      = ([], (ConvPos.idle, ud))) ∧
    (∀ ud, cancel false ud = ([], (ConvPos.idle, ud))) ∧
    (∀ pos ud, start false pos ud = ([], (pos, ud))) := by
  refine ⟨?_, fun _ _ _ => rfl, fun _ _ _ => rfl, fun _ _ _ _ _ => rfl,
    fun _ => rfl, fun _ _ => rfl⟩
  intro cfgAreas ud es
  induction es with
  | nil => rfl
  | cons e es ih =>
    have hstep : bot_step false cfgAreas (ConvPos.idle, ud) e
        = ([], (ConvPos.idle, ud)) := by
      cases e with
      | msg parsed raw nlp periodOk => rfl
      | cancelCmd => rfl
      | startCmd => rfl
    simp [runTrace, hstep, ih]

/-- Slot-request messages: the period prompt and the two area prompts. -/
def isSlotRequest : Send → Bool
  | Send.askPeriod => true
  | Send.askArea => true
  | Send.areaRetry => true
  | _ => false

/-- The period-before-area invariant: whenever the machine waits for an
area, the period slot is already filled. -/
def periodBeforeArea (st : ConvPos × UserData) : Prop :=
  st.1 = ConvPos.waitingArea → st.2.has_period = true

/-- C5: each turn sends at most one slot request; when the categories are
resolved but the period is missing the query handler always asks for the
period (regardless of the area slot) and moves to the waiting-period state;
the period-before-area invariant is preserved by every authorized step and
every turn that issues an area prompt leaves the period slot filled — so the
area prompt is never issued while the period slot is empty. -/
theorem C5_period_first :
    (∀ auth cfgAreas st e,
      (bot_step auth cfgAreas st e).1.countP isSlotRequest ≤ 1) ∧
    (∀ (parsed : IntentDict) (periodOk : Bool) (ud : UserData),
      (listTruthy parsed.categories || parsed.all_categories) = true →
      parsed.has_period = false →
      handle_query true parsed periodOk ud =
        ([Send.askPeriod], (ConvPos.waitingPeriod,
          { storeParsed parsed ud with waiting_for := some "period" }))) ∧
    (∀ cfgAreas st e, periodBeforeArea st →
      periodBeforeArea (bot_step true cfgAreas st e).2 ∧
      ((Send.askArea ∈ (bot_step true cfgAreas st e).1 ∨
        Send.areaRetry ∈ (bot_step true cfgAreas st e).1) →
       (bot_step true cfgAreas st e).2.2.has_period = true)) ∧
    periodBeforeArea (ConvPos.idle, emptyUD) := by
  refine ⟨?_, ?_, ?_, fun h => ConvPos.noConfusion h⟩
  · intro auth cfgAreas st e
    obtain ⟨pos, ud⟩ := st
    cases e with
    | startCmd =>
      simp only [bot_step, start]
      split <;> simp [List.countP_cons, List.countP_nil, isSlotRequest]
    | cancelCmd =>
      cases pos with
      | idle => simp [bot_step, List.countP_nil]
      | waitingPeriod =>
        simp only [bot_step, cancel]
        split <;> simp [List.countP_cons, List.countP_nil, isSlotRequest]
      | waitingArea =>
        simp only [bot_step, cancel]
        split <;> simp [List.countP_cons, List.countP_nil, isSlotRequest]
    | msg parsed raw nlp periodOk =>
      cases pos with
      | idle =>
        simp only [bot_step, handle_query]
        split_ifs <;> simp [List.countP_cons, List.countP_nil, isSlotRequest]
      | waitingPeriod =>
        simp only [bot_step, handle_period_response]
        split_ifs <;> simp [List.countP_cons, List.countP_nil, isSlotRequest]
      | waitingArea =>
        simp only [bot_step, handle_area_response]
        split
        · simp [List.countP_cons, List.countP_nil, isSlotRequest]
        · split
          · simp [List.countP_cons, List.countP_nil, isSlotRequest]
          · split_ifs <;> simp [List.countP_cons, List.countP_nil, isSlotRequest]
  · intro parsed periodOk ud hcats hper
    have hcond : (!listTruthy parsed.categories && !parsed.all_categories) = false := by
      cases h1 : listTruthy parsed.categories <;> cases h2 : parsed.all_categories <;>
        simp_all
    simp [handle_query, hcond, hper]
  · intro cfgAreas st e hinv
    obtain ⟨pos, ud⟩ := st
    cases e with
    | startCmd =>
      refine ⟨hinv, ?_⟩
      intro h
      rcases h with h | h <;> simp [bot_step, start, isSlotRequest] at h
    | cancelCmd =>
      cases pos with
      | idle =>
        refine ⟨hinv, ?_⟩
        intro h
        rcases h with h | h <;> simp [bot_step] at h
      | waitingPeriod =>
        refine ⟨?_, ?_⟩
        · intro h
          simp [bot_step, cancel] at h
        · intro h
          rcases h with h | h <;> simp [bot_step, cancel] at h
      | waitingArea =>
        refine ⟨?_, ?_⟩
        · intro h
          simp [bot_step, cancel] at h
        · intro h
          rcases h with h | h <;> simp [bot_step, cancel] at h
    | msg parsed raw nlp periodOk =>
      cases pos with
      | idle =>
        by_cases h1 : (!listTruthy parsed.categories && !parsed.all_categories) = true
        · refine ⟨?_, ?_⟩
          · intro h
            simp [bot_step, handle_query, h1] at h
          · intro h
            rcases h with h | h <;> simp [bot_step, handle_query, h1] at h
        · have h1' := eq_false_of_ne_true h1
          by_cases h2 : parsed.has_period = true
          · by_cases h3 : parsed.has_area = true
            · by_cases h4 : periodOk = true
              · refine ⟨?_, ?_⟩
                · intro h
                  simp [bot_step, handle_query, h1', h2, h3, h4] at h
                · intro h
                  rcases h with h | h <;>
                    simp [bot_step, handle_query, h1', h2, h3, h4] at h
              · have h4' := eq_false_of_ne_true h4
                refine ⟨?_, ?_⟩
                · intro h
                  simp [bot_step, handle_query, h1', h2, h3, h4'] at h
                · intro h
                  rcases h with h | h <;>
                    simp [bot_step, handle_query, h1', h2, h3, h4'] at h
            · have h3' := eq_false_of_ne_true h3
              refine ⟨?_, ?_⟩
              · intro _
                simp [bot_step, handle_query, h1', h2, h3', storeParsed]
              · intro _
                simp [bot_step, handle_query, h1', h2, h3', storeParsed]
          · have h2' := eq_false_of_ne_true h2
            refine ⟨?_, ?_⟩
            · intro h
              simp [bot_step, handle_query, h1', h2'] at h
            · intro h
              rcases h with h | h <;> simp [bot_step, handle_query, h1', h2'] at h
      | waitingPeriod =>
        by_cases hc : (!ud.has_area || (!listTruthy ud.areas && !ud.all_areas)) = true
        · refine ⟨?_, ?_⟩
          · intro _
            simp [bot_step, handle_period_response, hc]
          · intro _
            simp [bot_step, handle_period_response, hc]
        · have hc' := eq_false_of_ne_true hc
          by_cases h4 : periodOk = true
          · refine ⟨?_, ?_⟩
            · intro h
              simp [bot_step, handle_period_response, hc', h4] at h
            · intro h
              rcases h with h | h <;>
                simp [bot_step, handle_period_response, hc', h4] at h
          · have h4' := eq_false_of_ne_true h4
            refine ⟨?_, ?_⟩
            · intro h
              simp [bot_step, handle_period_response, hc', h4'] at h
            · intro h
              rcases h with h | h <;>
                simp [bot_step, handle_period_response, hc', h4'] at h
      | waitingArea =>
        have hper : ud.has_period = true := hinv rfl
        cases hcore : handle_area_core cfgAreas raw.data nlp with
        | none =>
          refine ⟨?_, ?_⟩
          · intro _
            simpa [bot_step, handle_area_response, hcore] using hper
          · intro _
            simpa [bot_step, handle_area_response, hcore] using hper
        | some pr =>
          obtain ⟨as, fl⟩ := pr
          by_cases h4 : periodOk = true
          · refine ⟨?_, ?_⟩
            · intro h
              simp [bot_step, handle_area_response, hcore, h4] at h
            · intro h
              rcases h with h | h <;>
                simp [bot_step, handle_area_response, hcore, h4] at h
          · have h4' := eq_false_of_ne_true h4
            refine ⟨?_, ?_⟩
            · intro h
              simp [bot_step, handle_area_response, hcore, h4'] at h
            · intro h
              rcases h with h | h <;>
                simp [bot_step, handle_area_response, hcore, h4'] at h

/-- Witness for C5 at a concrete turn: a query resolving only a category
asks for the period and waits for it. -/
theorem C5_period_first_witness :
    handle_query true { emptyIntent with categories := ["PS"] } true emptyUD =
      ([Send.askPeriod], (ConvPos.waitingPeriod,
        { storeParsed { emptyIntent with categories := ["PS"] } emptyUD with
          waiting_for := some "period" })) :=
  C5_period_first.2.1 { emptyIntent with categories := ["PS"] } true emptyUD
    (by decide) rfl

/-- C6: in the waiting-area state an authorized reply is resolved in source
order — the "all area(s)" / bare "all" regex first, then the Intent
Extractor's areas list (with its "all" sentinel or flag collapsing to
all-areas), then the manual `Area<sep><number>` token fallback (single or
" and "-joined) mapped as 1-based indices, then the case-insensitive
substring match against the configured area list — and when every fallback
yields no match, the handler re-prompts and remains in the waiting-area
state with `user_data`, hence the area slot, untouched. -/
theorem C6_area_resolution_order :
    (∀ cfgAreas input nlp, allAreasRegex input = true →
      handle_area_core cfgAreas input nlp = some (["all"], true)) ∧
    (∀ cfgAreas input nlp, allAreasRegex input = false →
      (nlpGetAllAreas nlp = true ∨ (nlpGetAreas nlp).contains "all" = true) →
      handle_area_core cfgAreas input nlp = some (["all"], true)) ∧
    (∀ cfgAreas input nlp, allAreasRegex input = false →
      nlpGetAllAreas nlp = false → (nlpGetAreas nlp).contains "all" = false →
      nlpGetAreas nlp ≠ [] →
      handle_area_core cfgAreas input nlp = some (nlpGetAreas nlp, false)) ∧
    (∀ cfgAreas input nlp, allAreasRegex input = false →
      nlpGetAllAreas nlp = false → nlpGetAreas nlp = [] →
      manualAreaMatch cfgAreas input ≠ [] →
      handle_area_core cfgAreas input nlp =
        some (manualAreaMatch cfgAreas input, false)) ∧
    (∀ cfgAreas input nlp, allAreasRegex input = false →
      nlpGetAllAreas nlp = false → nlpGetAreas nlp = [] →
      manualAreaMatch cfgAreas input = [] →
      handle_area_core cfgAreas input nlp = none) ∧
    (∀ cfgAreas input nlp periodOk ud,
      handle_area_core cfgAreas input nlp = none →
      handle_area_response true cfgAreas input nlp periodOk ud =
        ([Send.areaRetry], (ConvPos.waitingArea, ud))) := by
  refine ⟨?_, ?_, ?_, ?_, ?_, ?_⟩
  · intro cfgAreas input nlp h
    simp [handle_area_core, h]
  · intro cfgAreas input nlp hreg h
    rcases h with h | h
    · simp [handle_area_core, hreg, h]
    · have hne := listTruthy_of_contains _ _ h
      simp [handle_area_core, hreg, h, hne]
      intro _
      simpa using h
  · intro cfgAreas input nlp hreg hflag hall hne
    have hlt : listTruthy (nlpGetAreas nlp) = true := by
      cases hl : nlpGetAreas nlp with
      | nil => exact absurd hl hne
      | cons x xs => simp [listTruthy]
    simp [handle_area_core, hreg, hflag, hall, hlt]
    simpa using hall
  · intro cfgAreas input nlp hreg hflag hempty hne
    have hm : (manualAreaMatch cfgAreas input).isEmpty = false := by
      cases hl : manualAreaMatch cfgAreas input with
      | nil => exact absurd hl hne
      | cons x xs => rfl
    simp [handle_area_core, hreg, hflag, hempty, listTruthy, hm]
  · intro cfgAreas input nlp hreg hflag hempty hm
    simp [handle_area_core, hreg, hflag, hempty, listTruthy, hm]
  · intro cfgAreas input nlp periodOk ud hcore
    simp [handle_area_response, hcore]

/-- Witness for C6: the reply "all areas" resolves to the all-areas
sentinel through the special-case regex. -/
theorem C6_area_resolution_order_witness :
    handle_area_core Config.AREAS "all areas".toList NlpResult.reduced
      = some (["all"], true) :=
  C6_area_resolution_order.1 Config.AREAS "all areas".toList NlpResult.reduced
    (by decide)
